import Mathlib

/-!
Shallow embedding of the QuantEvolve core (src/src/core/feature_map.py and
src/src/core/evolutionary_database.py) and verification of its specification.

Modelling conventions:
* Python floats are modelled as rationals (`ℚ`); the constant `0.9999` is the
  rational `9999/10000`.
* Python exceptions (ZeroDivisionError in feature binning, IndexError on
  out-of-range numpy indexing, ValueError on seed-count mismatch) are modelled
  by `Option`-valued functions returning `none`; state mutated before a raise
  is not observable in the model.
* The numpy object archive is a total function from normalised (wrapped,
  in-range) index lists to `Option Strategy`.
* numpy's implicit random source is made explicit: a random stream `Rng` is a
  list of integers threaded through the sampling functions; each consumed
  element models one primitive draw (a floored Gaussian sample, an integer
  from `randint`, or an index choice), so every outcome the Python code can
  produce corresponds to some stream.
* Python list aliasing: `EvolutionaryDatabase.add_strategy` and island
  initialisation append an object and later mutate it through another
  reference; the model appends the final (fully updated) value, which is
  observationally equivalent at the end of the call.
-/

namespace QE

/-- Python `int()` applied to a rational: truncation toward zero. -/
def pyInt (q : ℚ) : Int :=
  if q < 0 then -(Rat.floor (-q)) else Rat.floor q

theorem pyInt_nonneg (q : ℚ) (h : 0 ≤ q) : 0 ≤ pyInt q := by
  unfold pyInt
  rw [if_neg (not_lt.mpr h), Rat.floor_def', ← Rat.floor_def]
  exact Int.floor_nonneg.mpr h

theorem pyInt_eq_floor (q : ℚ) (h : 0 ≤ q) : pyInt q = ⌊q⌋ := by
  unfold pyInt
  rw [if_neg (not_lt.mpr h), Rat.floor_def', ← Rat.floor_def]

/-- Metrics dictionary of a strategy: association list from metric name to number. -/
abbrev Metrics := List (String × ℚ)

/-- Python `metrics.get(key, default)`. -/
def metricsGet (ms : Metrics) (key : String) (dflt : ℚ) : ℚ :=
  match ms.find? (fun p => p.1 == key) with
  | some p => p.2
  | none => dflt

/-- `FeatureDimension` from feature_map.py: name, type tag
('continuous' or 'binary'), bin count, optional numeric range. -/
structure FeatureDimension where
  name : String
  type : String
  bins : Nat
  range : Option (ℚ × ℚ)
deriving DecidableEq

/-- `Strategy` dataclass from feature_map.py (scoring-relevant fields). -/
structure Strategy where
  metrics : Metrics
  feature_vector : Option (List Int)
  combined_score : ℚ
  generation : Nat
  island_id : Nat
  parent_id : Option String
  strategy_id : String
deriving DecidableEq

/-- One coordinate of `FeatureMap._compute_feature_vector`.
`none` models a Python exception: `% 0` on the categorical branch or
float division by zero when a continuous range has zero width. -/
def binForDim (dim : FeatureDimension) (ms : Metrics) : Option Int :=
  if dim.name = "strategy_category" then
    if dim.bins = 0 then none
    else some (pyInt (metricsGet ms "strategy_category_bin" 0) % (dim.bins : Int))
  else if dim.type = "continuous" then
    match dim.range with
    | some (mn, mx) =>
      if mx - mn = 0 then none
      else
        let normalized := (metricsGet ms dim.name 0 - mn) / (mx - mn)
        let clipped := min (max normalized 0) ((9999 : ℚ) / 10000)
        some (pyInt (clipped * (dim.bins : ℚ)))
    | none => some 0
  else some 0

/-- The uncached loop of `FeatureMap._compute_feature_vector`, one bin per
dimension in declared order. -/
def computeBinsList : List FeatureDimension → Metrics → Option (List Int)
  | [], _ => some []
  | dim :: rest, ms =>
    match binForDim dim ms, computeBinsList rest ms with
    | some b, some bs => some (b :: bs)
    | _, _ => none

/-- `FeatureMap._compute_feature_vector`: the cached vector when present,
otherwise freshly computed bins. -/
def computeFeatureVector (dims : List FeatureDimension) (s : Strategy) : Option (List Int) :=
  match s.feature_vector with
  | some fv => some fv
  | none => computeBinsList dims s.metrics

/-- numpy integer indexing of an N-d array of shape `bins`: each coordinate
must satisfy `-b ≤ i < b`; negative coordinates wrap to `b + i`.  Returns the
normalised non-negative index list, or `none` for an IndexError. -/
def npIndex : List Nat → List Int → Option (List Nat)
  | [], [] => some []
  | b :: bs, i :: is' =>
    if -(b : Int) ≤ i ∧ i < (b : Int) then
      match npIndex bs is' with
      | some rest => some ((if i < 0 then (i + b).toNat else i.toNat) :: rest)
      | none => none
    else none
  | _, _ => none

/-- Point update of an archive function. -/
def setCell (f : List Nat → Option Strategy) (key : List Nat) (v : Option Strategy) :
    List Nat → Option Strategy :=
  fun k => if k = key then v else f k

/-- `FeatureMap` state: dimension declarations, the archive grid, and the
three observability counters. -/
structure FeatureMap where
  dimensions : List FeatureDimension
  archive : List Nat → Option Strategy
  num_added : Nat
  num_rejected : Nat
  num_improved : Nat

/-- The in-place mutation `add` performs on the candidate before admission:
cache the computed feature vector, and set the island id when one is given. -/
def updateOnAdd (s : Strategy) (fv : List Int) (islandId : Option Nat) : Strategy :=
  { s with feature_vector := some fv, island_id := islandId.getD s.island_id }

/-- `FeatureMap.add`: bin the candidate, then store / replace-on-strict-
improvement / reject.  Returns the accept flag, the candidate as mutated by
the call (feature vector cached, island id set) and the new map state;
`none` models an uncaught exception.  The Python comparison reads the score
through the mutated candidate, whose `combined_score` field is untouched by
the mutation, so `s.combined_score` is compared directly here. -/
def FeatureMap.add (fm : FeatureMap) (s : Strategy) (islandId : Option Nat) :
    Option (Bool × Strategy × FeatureMap) :=
  match computeFeatureVector fm.dimensions s with
  | none => none
  | some fv =>
    match npIndex (fm.dimensions.map (fun d => d.bins)) fv with
    | none => none
    | some key =>
      match fm.archive key with
      | none =>
        some (true, updateOnAdd s fv islandId,
          { fm with archive := setCell fm.archive key (some (updateOnAdd s fv islandId)),
                    num_added := fm.num_added + 1 })
      | some existing =>
        if existing.combined_score < s.combined_score then
          some (true, updateOnAdd s fv islandId,
            { fm with archive := setCell fm.archive key (some (updateOnAdd s fv islandId)),
                      num_improved := fm.num_improved + 1 })
        else
          some (false, updateOnAdd s fv islandId,
            { fm with num_rejected := fm.num_rejected + 1 })

/-- `FeatureMap.get`: numpy lookup with IndexError caught to `None`. -/
def FeatureMap.get (fm : FeatureMap) (v : List Int) : Option Strategy :=
  match npIndex (fm.dimensions.map (fun d => d.bins)) v with
  | none => none
  | some key => fm.archive key

/-- The archive state after one `add` call; a raising call leaves the map
unchanged in the caller no matter how the exception is handled. -/
def stepAdd (fm : FeatureMap) (s : Strategy) (islandId : Option Nat) : FeatureMap :=
  match fm.add s islandId with
  | some (_, _, fm') => fm'
  | none => fm

/-- The archive state after a sequence of `add` calls. -/
def runAdds (fm : FeatureMap) : List (Strategy × Option Nat) → FeatureMap
  | [] => fm
  | (s, isl) :: rest => runAdds (stepAdd fm s isl) rest

theorem setCell_same (f : List Nat → Option Strategy) (key : List Nat) (v : Option Strategy) :
    setCell f key v key = v := by
  simp [setCell]

theorem setCell_other (f : List Nat → Option Strategy) (key k : List Nat) (v : Option Strategy)
    (h : k ≠ key) : setCell f key v k = f k := by
  simp [setCell, h]

/-- The candidate value stored by `add` keeps the candidate's combined score
and strategy id, caches the computed vector, and takes the given island id. -/
theorem add_updates (fm : FeatureMap) (s : Strategy) (islandId : Option Nat)
    (b : Bool) (s' : Strategy) (fm' : FeatureMap)
    (hadd : fm.add s islandId = some (b, s', fm')) :
    ∃ fv key, computeFeatureVector fm.dimensions s = some fv ∧
      npIndex (fm.dimensions.map (fun d => d.bins)) fv = some key ∧
      s' = updateOnAdd s fv islandId := by
  unfold FeatureMap.add at hadd
  split at hadd
  · simp at hadd
  · rename_i fv hfv
    split at hadd
    · simp at hadd
    · rename_i key hkey
      refine ⟨fv, key, hfv, hkey, ?_⟩
      split at hadd
      · simp only [Option.some.injEq, Prod.mk.injEq] at hadd
        exact hadd.2.1.symm
      · split at hadd <;>
          (simp only [Option.some.injEq, Prod.mk.injEq] at hadd; exact hadd.2.1.symm)

/-- Any single successful `add` can only keep or raise the score of the
occupant of every cell. -/
theorem add_archive_mono (fm : FeatureMap) (s : Strategy) (islandId : Option Nat)
    (b : Bool) (s' : Strategy) (fm' : FeatureMap)
    (hadd : fm.add s islandId = some (b, s', fm'))
    (key : List Nat) (occ : Strategy) (h : fm.archive key = some occ) :
    ∃ occ', fm'.archive key = some occ' ∧ occ.combined_score ≤ occ'.combined_score := by
  unfold FeatureMap.add at hadd
  split at hadd
  · simp at hadd
  · rename_i fv hfv
    split at hadd
    · simp at hadd
    · rename_i k hk
      split at hadd
      · -- target cell empty
        rename_i hempty
        simp only [Option.some.injEq, Prod.mk.injEq] at hadd
        obtain ⟨-, -, hfm'⟩ := hadd
        subst hfm'
        by_cases hkk : key = k
        · subst hkk; rw [h] at hempty; exact absurd hempty (by simp)
        · exact ⟨occ, by simpa [setCell_other _ _ _ _ hkk] using h, le_refl _⟩
      · rename_i existing hexist
        split at hadd
        · -- strict improvement: replace
          rename_i hlt
          simp only [Option.some.injEq, Prod.mk.injEq] at hadd
          obtain ⟨-, -, hfm'⟩ := hadd
          subst hfm'
          by_cases hkk : key = k
          · subst hkk
            refine ⟨_, setCell_same _ _ _, ?_⟩
            have hex : existing = occ := by rw [hexist] at h; exact Option.some.inj h
            subst hex
            exact le_of_lt hlt
          · exact ⟨occ, by simpa [setCell_other _ _ _ _ hkk] using h, le_refl _⟩
        · -- tie or worse: archive untouched
          simp only [Option.some.injEq, Prod.mk.injEq] at hadd
          obtain ⟨-, -, hfm'⟩ := hadd
          subst hfm'
          exact ⟨occ, h, le_refl _⟩

theorem stepAdd_archive_mono (fm : FeatureMap) (s : Strategy) (islandId : Option Nat)
    (key : List Nat) (occ : Strategy) (h : fm.archive key = some occ) :
    ∃ occ', (stepAdd fm s islandId).archive key = some occ' ∧
      occ.combined_score ≤ occ'.combined_score := by
  unfold stepAdd
  split
  · rename_i b s' fm' hadd
    exact add_archive_mono fm s islandId b s' fm' hadd key occ h
  · exact ⟨occ, h, le_refl _⟩

/-- C1. For every `FeatureMap` and every archive cell, across any sequence of
`add` calls the occupant's `combined_score` never decreases: `add` stores into
an empty cell, replaces an occupant only on strictly greater
`combined_score`, and on a tie or lower score returns `False` with the
archive left unchanged. -/
theorem archive_score_monotone :
    (∀ (fm : FeatureMap) (seq : List (Strategy × Option Nat)) (key : List Nat) (occ : Strategy),
      fm.archive key = some occ →
      ∃ occ', (runAdds fm seq).archive key = some occ' ∧
        occ.combined_score ≤ occ'.combined_score) ∧
    (∀ (fm : FeatureMap) (s : Strategy) (islandId : Option Nat)
        (b : Bool) (s' : Strategy) (fm' : FeatureMap),
      fm.add s islandId = some (b, s', fm') →
      ∃ fv key, computeFeatureVector fm.dimensions s = some fv ∧
        npIndex (fm.dimensions.map (fun d => d.bins)) fv = some key ∧
        s'.combined_score = s.combined_score ∧
        (fm.archive key = none → b = true ∧ fm'.archive key = some s') ∧
        (∀ occ, fm.archive key = some occ → occ.combined_score < s.combined_score →
          b = true ∧ fm'.archive key = some s') ∧
        (∀ occ, fm.archive key = some occ → s.combined_score ≤ occ.combined_score →
          b = false ∧ fm'.archive = fm.archive)) := by
  constructor
  · intro fm seq
    induction seq generalizing fm with
    | nil => intro key occ h; exact ⟨occ, h, le_refl _⟩
    | cons p rest ih =>
      intro key occ h
      obtain ⟨occ1, h1, hle1⟩ := stepAdd_archive_mono fm p.1 p.2 key occ h
      obtain ⟨occ2, h2, hle2⟩ := ih (stepAdd fm p.1 p.2) key occ1 h1
      exact ⟨occ2, h2, le_trans hle1 hle2⟩
  · intro fm s islandId b s' fm' hadd
    unfold FeatureMap.add at hadd
    split at hadd
    · simp at hadd
    · rename_i fv hfv
      split at hadd
      · simp at hadd
      · rename_i key hkey
        have hstruct :
            (fm.archive key = none ∧ b = true ∧ s' = updateOnAdd s fv islandId ∧
              fm' = { fm with
                archive := setCell fm.archive key (some (updateOnAdd s fv islandId)),
                num_added := fm.num_added + 1 }) ∨
            (∃ occ, fm.archive key = some occ ∧ occ.combined_score < s.combined_score ∧
              b = true ∧ s' = updateOnAdd s fv islandId ∧
              fm' = { fm with
                archive := setCell fm.archive key (some (updateOnAdd s fv islandId)),
                num_improved := fm.num_improved + 1 }) ∨
            (∃ occ, fm.archive key = some occ ∧ ¬ occ.combined_score < s.combined_score ∧
              b = false ∧ s' = updateOnAdd s fv islandId ∧
              fm' = { fm with num_rejected := fm.num_rejected + 1 }) := by
          split at hadd
          · rename_i hempty
            simp only [Option.some.injEq, Prod.mk.injEq] at hadd
            exact Or.inl ⟨hempty, hadd.1.symm, hadd.2.1.symm, hadd.2.2.symm⟩
          · rename_i existing hexist
            split at hadd
            · rename_i hlt
              simp only [Option.some.injEq, Prod.mk.injEq] at hadd
              exact Or.inr (Or.inl
                ⟨existing, hexist, hlt, hadd.1.symm, hadd.2.1.symm, hadd.2.2.symm⟩)
            · rename_i hnlt
              simp only [Option.some.injEq, Prod.mk.injEq] at hadd
              exact Or.inr (Or.inr
                ⟨existing, hexist, hnlt, hadd.1.symm, hadd.2.1.symm, hadd.2.2.symm⟩)
        refine ⟨fv, key, hfv, hkey, ?_, ?_, ?_, ?_⟩
        · rcases hstruct with ⟨-, -, hs', -⟩ | ⟨-, -, -, -, hs', -⟩ | ⟨-, -, -, -, hs', -⟩ <;>
            (subst hs'; rfl)
        · intro hempty
          rcases hstruct with ⟨-, hb, hs', hfm'⟩ | ⟨occ, hocc, -⟩ | ⟨occ, hocc, -⟩
          · subst hs'; subst hfm'; exact ⟨hb, setCell_same _ _ _⟩
          · rw [hempty] at hocc; exact absurd hocc (by simp)
          · rw [hempty] at hocc; exact absurd hocc (by simp)
        · intro occ hocc hlt
          rcases hstruct with ⟨hempty, -⟩ | ⟨occ2, hocc2, -, hb, hs', hfm'⟩ |
              ⟨occ2, hocc2, hnlt, -⟩
          · rw [hempty] at hocc; exact absurd hocc (by simp)
          · subst hs'; subst hfm'; exact ⟨hb, setCell_same _ _ _⟩
          · rw [hocc] at hocc2
            exact absurd (Option.some.inj hocc2 ▸ hlt) hnlt
        · intro occ hocc hge
          rcases hstruct with ⟨hempty, -⟩ | ⟨occ2, hocc2, hlt, -⟩ |
              ⟨occ2, hocc2, -, hb, hs', hfm'⟩
          · rw [hempty] at hocc; exact absurd hocc (by simp)
          · rw [hocc] at hocc2
            exact absurd (Option.some.inj hocc2 ▸ hlt) (not_lt.mpr hge)
          · subst hfm'; exact ⟨hb, rfl⟩

/-- A one-dimensional continuous feature dimension with a single bin. -/
def dimX : FeatureDimension := ⟨"x", "continuous", 1, none⟩

/-- The all-empty archive grid. -/
def emptyArchive : List Nat → Option Strategy := fun _ => none

/-- A minimal strategy value for concrete instantiations. -/
def mkStrategy (id : String) (score : ℚ) (fv : Option (List Int)) : Strategy :=
  ⟨[], fv, score, 0, 0, none, id⟩

def occ1 : Strategy := mkStrategy "occ" 1 (some [0])

def cand1 : Strategy := mkStrategy "cand" (1/2) (some [0])

def fm1 : FeatureMap := ⟨[dimX], setCell emptyArchive [0] (some occ1), 0, 0, 0⟩

theorem archive_score_monotone_witness :
    fm1.archive [0] = some occ1 ∧
    ∃ occ', (runAdds fm1 [(cand1, none)]).archive [0] = some occ' ∧
      occ1.combined_score ≤ occ'.combined_score :=
  ⟨rfl, archive_score_monotone.1 fm1 [(cand1, none)] [0] occ1 rfl⟩

/-! ### numpy indexing lemmas -/

/-- The normalised cell index: negative coordinates wrap by adding the
dimension's bin count. -/
def wrapIndex (bins : List Nat) (v : List Int) : List Nat :=
  List.zipWith (fun (b : Nat) (i : Int) => if i < 0 then (i + (b : Int)).toNat else i.toNat)
    bins v

theorem npIndex_some_of_inrange : ∀ (bins : List Nat) (v : List Int),
    v.length = bins.length →
    (∀ i b c, bins.get? i = some b → v.get? i = some c →
      -(b : Int) ≤ c ∧ c < (b : Int)) →
    npIndex bins v = some (wrapIndex bins v)
  | [], [], _, _ => rfl
  | [], _ :: _, hlen, _ => by simp at hlen
  | _ :: _, [], hlen, _ => by simp at hlen
  | b :: bs, c :: cs, hlen, h => by
    have hhead := h 0 b c rfl rfl
    have htail := npIndex_some_of_inrange bs cs (by simpa using hlen)
      (fun i bb cc hb hc => h (i + 1) bb cc hb hc)
    simp only [npIndex, if_pos hhead, htail, wrapIndex, List.zipWith]

theorem npIndex_none_of_oob : ∀ (bins : List Nat) (v : List Int) (i : Nat) (b : Nat) (c : Int),
    bins.get? i = some b → v.get? i = some c → (b : Int) ≤ c →
    npIndex bins v = none
  | [], _, i, _, _, hb, _, _ => by simp at hb
  | _ :: _, [], i, _, _, _, hc, _ => by simp at hc
  | b0 :: bs, c0 :: cs, 0, b, c, hb, hc, hbc => by
    have hb0 : b0 = b := by simpa using hb
    have hc0 : c0 = c := by simpa using hc
    subst hb0; subst hc0
    simp only [npIndex]
    rw [if_neg]
    intro hand
    exact absurd hand.2 (not_lt.mpr hbc)
  | b0 :: bs, c0 :: cs, i + 1, b, c, hb, hc, hbc => by
    have htail := npIndex_none_of_oob bs cs i b c (by simpa using hb) (by simpa using hc) hbc
    simp only [npIndex, htail]
    split
    · rfl
    · rfl

theorem npIndex_some_inrange : ∀ (bins : List Nat) (v : List Int) (key : List Nat),
    npIndex bins v = some key →
    ∀ i b c, bins.get? i = some b → v.get? i = some c →
      -(b : Int) ≤ c ∧ c < (b : Int)
  | [], [], _, _, i, b, c, hb, _ => by simp at hb
  | [], _ :: _, _, h, _, _, _, _, _ => by simp [npIndex] at h
  | _ :: _, [], _, h, _, _, _, _, _ => by simp [npIndex] at h
  | b0 :: bs, c0 :: cs, key, h, i, b, c, hb, hc => by
    simp only [npIndex] at h
    split at h
    · rename_i hrange
      match i, hb, hc with
      | 0, hb, hc =>
        have hb0 : b0 = b := by simpa using hb
        have hc0 : c0 = c := by simpa using hc
        subst hb0; subst hc0
        exact hrange
      | i + 1, hb, hc =>
        cases htail : npIndex bs cs with
        | none => rw [htail] at h; simp at h
        | some rest =>
          exact npIndex_some_inrange bs cs rest htail i b c
            (by simpa using hb) (by simpa using hc)
    · simp at h

theorem npIndex_some_length : ∀ (bins : List Nat) (v : List Int) (key : List Nat),
    npIndex bins v = some key → v.length = bins.length
  | [], [], _, _ => rfl
  | [], _ :: _, _, h => by simp [npIndex] at h
  | _ :: _, [], _, h => by simp [npIndex] at h
  | b0 :: bs, c0 :: cs, key, h => by
    simp only [npIndex] at h
    split at h
    · cases htail : npIndex bs cs with
      | none => rw [htail] at h; simp at h
      | some rest =>
        simpa using npIndex_some_length bs cs rest htail
    · simp at h

/-! ### C10: totality and wrapping of `FeatureMap.get` -/

/-- C10. `FeatureMap.get` is total: a coordinate at or above its dimension's
bin count yields `none` (the IndexError is caught), while a vector whose
coordinates all satisfy `-bins ≤ c < bins` reads the cell at the wrapped
index, so a negative coordinate `-j` with `j ≤ bins` addresses the cell at
`bins - j` rather than yielding `none`. -/
theorem featureMap_get_spec (fm : FeatureMap) (v : List Int)
    (hlen : v.length = fm.dimensions.length) :
    ((∃ i c dim, v.get? i = some c ∧ fm.dimensions.get? i = some dim ∧
        (dim.bins : Int) ≤ c) → fm.get v = none) ∧
    ((∀ i c dim, v.get? i = some c → fm.dimensions.get? i = some dim →
        -(dim.bins : Int) ≤ c ∧ c < (dim.bins : Int)) →
      fm.get v = fm.archive (wrapIndex (fm.dimensions.map (fun d => d.bins)) v)) := by
  constructor
  · rintro ⟨i, c, dim, hc, hdim, hoob⟩
    have hb : (fm.dimensions.map (fun d => d.bins)).get? i = some dim.bins := by
      rw [List.get?_map, hdim]; rfl
    unfold FeatureMap.get
    rw [npIndex_none_of_oob _ v i dim.bins c hb hc hoob]
  · intro hin
    have hlen' : v.length = (fm.dimensions.map (fun d => d.bins)).length := by
      simpa using hlen
    have hsome := npIndex_some_of_inrange _ v hlen' ?_
    · unfold FeatureMap.get
      rw [hsome]
    · intro i b c hb hc
      rw [List.get?_map] at hb
      cases hdim : fm.dimensions.get? i with
      | none => rw [hdim] at hb; simp at hb
      | some dim =>
        rw [hdim] at hb
        have : dim.bins = b := by simpa using hb
        subst this
        exact hin i c dim hc hdim

def s10 : Strategy := mkStrategy "s10" 2 (some [2])

def fm10 : FeatureMap :=
  ⟨[⟨"x", "continuous", 3, none⟩], setCell emptyArchive [2] (some s10), 0, 0, 0⟩

theorem fm10_inrange : ∀ (i : Nat) (c : Int) (dim : FeatureDimension),
    [(-1 : Int)].get? i = some c → fm10.dimensions.get? i = some dim →
    -(dim.bins : Int) ≤ c ∧ c < (dim.bins : Int) := by
  intro i c dim hc hdim
  match i, hc, hdim with
  | 0, hc, hdim =>
    have h1 : (-1 : Int) = c := by simpa using hc
    have h2 : (⟨"x", "continuous", 3, none⟩ : FeatureDimension) = dim := by
      simpa [fm10] using hdim
    subst h1; subst h2
    exact ⟨by decide, by decide⟩

/-! ### C2: computed feature vectors are in range -/

theorem binForDim_nonneg (dim : FeatureDimension) (ms : Metrics) (c : Int)
    (h : binForDim dim ms = some c) : 0 ≤ c := by
  unfold binForDim at h
  split at h
  · split at h
    · simp at h
    · rename_i hbins
      have hc := Option.some.inj h
      subst hc
      exact Int.emod_nonneg _ (by exact_mod_cast hbins)
  · split at h
    · split at h
      · rename_i mn mx
        split at h
        · simp at h
        · have hc := Option.some.inj h
          subst hc
          apply pyInt_nonneg
          apply mul_nonneg _ (by positivity)
          exact le_min (le_max_right _ _) (by norm_num)
      · have hc := Option.some.inj h
        subst hc
        exact le_refl 0
    · have hc := Option.some.inj h
      subst hc
      exact le_refl 0

theorem computeBinsList_get : ∀ (dims : List FeatureDimension) (ms : Metrics)
    (v : List Int) (i : Nat) (dim : FeatureDimension),
    computeBinsList dims ms = some v → dims.get? i = some dim →
    ∃ c, binForDim dim ms = some c ∧ v.get? i = some c
  | [], _, _, i, _, _, hdim => by simp at hdim
  | d0 :: rest, ms, v, i, dim, h, hdim => by
    simp only [computeBinsList] at h
    split at h
    · rename_i b bs hb hbs
      have hv := Option.some.inj h
      subst hv
      match i, hdim with
      | 0, hdim =>
        have hd : d0 = dim := by simpa using hdim
        subst hd
        exact ⟨b, hb, rfl⟩
      | i + 1, hdim =>
        exact computeBinsList_get rest ms bs i dim hbs (by simpa using hdim)
    · simp at h

theorem computeBinsList_nonneg (dims : List FeatureDimension) (ms : Metrics)
    (v : List Int) (h : computeBinsList dims ms = some v) :
    ∀ i c, v.get? i = some c → 0 ≤ c := by
  intro i c hc
  cases hdim : dims.get? i with
  | none =>
    -- `v` is no longer than `dims`, so position `i` cannot hold a value
    exfalso
    revert hdim hc h
    induction dims generalizing v i with
    | nil =>
      intro h hc hdim
      have hv : ([] : List Int) = v := by simpa [computeBinsList] using h
      subst hv
      simp at hc
    | cons d0 rest ih =>
      intro h hc hdim
      simp only [computeBinsList] at h
      split at h
      · rename_i b bs hb hbs
        have hv := Option.some.inj h
        subst hv
        match i, hc, hdim with
        | 0, hc, hdim => simp at hdim
        | i + 1, hc, hdim =>
          exact ih bs i hbs (by simpa using hc) (by simpa using hdim)
      · simp at h
  | some dim =>
    obtain ⟨c', hc', hvc⟩ := computeBinsList_get dims ms v i dim h hdim
    have hcc : c' = c := by rw [hvc] at hc; exact Option.some.inj hc
    rw [hcc] at hc'
    exact binForDim_nonneg dim ms c hc'

/-- C2. Every candidate that reaches admission with no cached feature vector
gets a vector computed at admission whose coordinates all satisfy
`0 ≤ v_i < bins_i`, and the archive indexing performed by `add` succeeds. -/
theorem admitted_vector_in_range (fm : FeatureMap) (s : Strategy) (islandId : Option Nat)
    (b : Bool) (s' : Strategy) (fm' : FeatureMap)
    (hnone : s.feature_vector = none)
    (hadd : fm.add s islandId = some (b, s', fm')) :
    ∃ fv, s'.feature_vector = some fv ∧ fv.length = fm.dimensions.length ∧
      (∀ i c dim, fv.get? i = some c → fm.dimensions.get? i = some dim →
        0 ≤ c ∧ c < (dim.bins : Int)) ∧
      (npIndex (fm.dimensions.map (fun d => d.bins)) fv).isSome := by
  obtain ⟨fv, key, hfv, hkey, hs'⟩ := add_updates fm s islandId b s' fm' hadd
  have hcb : computeBinsList fm.dimensions s.metrics = some fv := by
    unfold computeFeatureVector at hfv
    rw [hnone] at hfv
    exact hfv
  subst hs'
  refine ⟨fv, rfl, ?_, ?_, ?_⟩
  · simpa using npIndex_some_length _ fv key hkey
  · intro i c dim hc hdim
    refine ⟨computeBinsList_nonneg _ _ _ hcb i c hc, ?_⟩
    have hb : (fm.dimensions.map (fun d => d.bins)).get? i = some dim.bins := by
      rw [List.get?_map, hdim]; rfl
    exact (npIndex_some_inrange _ fv key hkey i dim.bins c hb hc).2
  · rw [hkey]; rfl

def s2w : Strategy := ⟨[("strategy_category_bin", 7)], none, 0, 0, 0, none, "w2"⟩

def fm2w : FeatureMap := ⟨[⟨"strategy_category", "binary", 4, none⟩], emptyArchive, 0, 0, 0⟩

def s2w' : Strategy := ⟨[("strategy_category_bin", 7)], some [3], 0, 0, 0, none, "w2"⟩

def fm2w' : FeatureMap :=
  ⟨[⟨"strategy_category", "binary", 4, none⟩], setCell emptyArchive [3] (some s2w'), 1, 0, 0⟩

theorem admitted_vector_in_range_witness :
    s2w.feature_vector = none ∧
    ∃ fv, s2w'.feature_vector = some fv ∧ fv.length = fm2w.dimensions.length ∧
      (∀ i c dim, fv.get? i = some c → fm2w.dimensions.get? i = some dim →
        0 ≤ c ∧ c < (dim.bins : Int)) ∧
      (npIndex (fm2w.dimensions.map (fun d => d.bins)) fv).isSome :=
  ⟨rfl, admitted_vector_in_range fm2w s2w none true s2w' fm2w' rfl rfl⟩

/-! ### C7: categorical-bitset binning -/

/-- C7 (amended).  The dimension the code treats as the categorical bitset is
the one *named* `strategy_category`; its coordinate is the integer value of
the `strategy_category_bin` metric reduced modulo the bin count, and when the
metric is absent the default is `0` (so the coordinate is `0 mod binCount`).
Any other non-continuous dimension always receives coordinate `0`. -/
theorem categorical_bin_amended :
    (∀ (dims : List FeatureDimension) (ms : Metrics) (v : List Int) (i : Nat)
        (dim : FeatureDimension),
      computeBinsList dims ms = some v → dims.get? i = some dim →
      dim.name = "strategy_category" →
      v.get? i = some (pyInt (metricsGet ms "strategy_category_bin" 0) % (dim.bins : Int)) ∧
      (ms.find? (fun p => p.1 == "strategy_category_bin") = none → v.get? i = some 0)) ∧
    (∀ (dims : List FeatureDimension) (ms : Metrics) (v : List Int) (i : Nat)
        (dim : FeatureDimension),
      computeBinsList dims ms = some v → dims.get? i = some dim →
      dim.name ≠ "strategy_category" → dim.type ≠ "continuous" →
      v.get? i = some 0) := by
  constructor
  · intro dims ms v i dim h hdim hname
    obtain ⟨c, hc, hvc⟩ := computeBinsList_get dims ms v i dim h hdim
    unfold binForDim at hc
    rw [if_pos hname] at hc
    split at hc
    · simp at hc
    · have hc' := Option.some.inj hc
      subst hc'
      refine ⟨hvc, ?_⟩
      intro hfind
      have hget : metricsGet ms "strategy_category_bin" 0 = 0 := by
        unfold metricsGet
        rw [hfind]
      rw [hget] at hvc
      have hz : pyInt 0 = 0 := rfl
      rw [hz] at hvc
      simpa using hvc
  · intro dims ms v i dim h hdim hname htype
    obtain ⟨c, hc, hvc⟩ := computeBinsList_get dims ms v i dim h hdim
    unfold binForDim at hc
    rw [if_neg hname, if_neg htype] at hc
    have hc' := Option.some.inj hc
    subst hc'
    exact hvc

def dims7 : List FeatureDimension :=
  [⟨"strategy_category", "binary", 4, none⟩, ⟨"momentum_bits", "binary", 4, none⟩]

def ms7 : Metrics := [("momentum_bits", 3)]

/-- C7 counterexample.  With the `strategy_category_bin` metric absent, the
categorical coordinate is `0`, not `1 mod binCount = 1`; and a
categorical-bitset (binary) dimension under any other name gets coordinate
`0`, not its metric value `3 mod 4 = 3`. -/
theorem categorical_default_cex :
    computeBinsList dims7 ms7 = some [0, 0] ∧
    ms7.find? (fun p => p.1 == "strategy_category_bin") = none ∧
    (0 : Int) ≠ (1 : Int) % 4 ∧
    metricsGet ms7 "momentum_bits" 0 = 3 ∧
    (0 : Int) ≠ pyInt 3 % 4 :=
  ⟨rfl, rfl, by decide, rfl, by decide⟩

theorem categorical_bin_amended_witness :
    ([(0 : Int), 0].get? 0 =
      some (pyInt (metricsGet ms7 "strategy_category_bin" 0) % ((4 : Nat) : Int))) ∧
    [(0 : Int), 0].get? 1 = some 0 :=
  ⟨by
    have h := (categorical_bin_amended.1 dims7 ms7 [0, 0] 0
      ⟨"strategy_category", "binary", 4, none⟩ rfl rfl rfl).1
    exact h,
   (categorical_bin_amended.2 dims7 ms7 [0, 0] 1
      ⟨"momentum_bits", "binary", 4, none⟩ rfl rfl (by decide) (by decide))⟩

theorem featureMap_get_spec_witness :
    ([(-1 : Int)].length = fm10.dimensions.length ∧
      fm10.get [-1] = fm10.archive (wrapIndex (fm10.dimensions.map (fun d => d.bins)) [-1]) ∧
      fm10.get [-1] = some s10) ∧
    ([(5 : Int)].length = fm10.dimensions.length ∧ fm10.get [5] = none) :=
  ⟨⟨rfl,
    (featureMap_get_spec fm10 [-1] rfl).2 fm10_inrange,
    by rw [(featureMap_get_spec fm10 [-1] rfl).2 fm10_inrange]; rfl⟩,
   ⟨rfl,
    (featureMap_get_spec fm10 [5] rfl).1 ⟨0, 5, ⟨"x", "continuous", 3, none⟩, rfl, rfl, by decide⟩⟩⟩

/-! ### Islands and the evolutionary database -/

/-- Stable descending insertion by a rational key: the model of Python's
stable `sorted(..., key=..., reverse=True)`. -/
def insertByDesc {α : Type} (key : α → ℚ) (x : α) : List α → List α
  | [] => [x]
  | y :: ys => if key y ≤ key x then x :: y :: ys else y :: insertByDesc key x ys

def sortByDesc {α : Type} (key : α → ℚ) : List α → List α
  | [] => []
  | x :: xs => insertByDesc key x (sortByDesc key xs)

theorem mem_insertByDesc {α : Type} (key : α → ℚ) (x y : α) :
    ∀ l : List α, y ∈ insertByDesc key x l ↔ y = x ∨ y ∈ l
  | [] => by simp [insertByDesc]
  | z :: zs => by
    simp only [insertByDesc]
    split
    · simp
    · rw [List.mem_cons, mem_insertByDesc key x y zs, List.mem_cons]
      tauto

theorem mem_sortByDesc {α : Type} (key : α → ℚ) (y : α) :
    ∀ l : List α, y ∈ sortByDesc key l ↔ y ∈ l
  | [] => Iff.rfl
  | x :: xs => by
    rw [sortByDesc, mem_insertByDesc, mem_sortByDesc key y xs, List.mem_cons]

theorem length_insertByDesc {α : Type} (key : α → ℚ) (x : α) :
    ∀ l : List α, (insertByDesc key x l).length = l.length + 1
  | [] => rfl
  | z :: zs => by
    simp only [insertByDesc]
    split
    · rfl
    · simp [length_insertByDesc key x zs]

theorem length_sortByDesc {α : Type} (key : α → ℚ) :
    ∀ l : List α, (sortByDesc key l).length = l.length
  | [] => rfl
  | x :: xs => by
    rw [sortByDesc, length_insertByDesc, length_sortByDesc key xs]
    rfl

/-- `Island` from evolutionary_database.py. -/
structure Island where
  island_id : Nat
  category : String
  population : List Strategy
  strategies_on_map : List Strategy
deriving DecidableEq

/-- `Island.get_best_strategies`: top-`n` elites by descending score. -/
def getBestStrategies (isl : Island) (n : Nat) : List Strategy :=
  if isl.strategies_on_map.isEmpty then []
  else (sortByDesc (fun s => s.combined_score) isl.strategies_on_map).take n

theorem getBestStrategies_subset (isl : Island) (n : Nat) (s : Strategy)
    (h : s ∈ getBestStrategies isl n) : s ∈ isl.strategies_on_map := by
  unfold getBestStrategies at h
  split at h
  · simp at h
  · exact (mem_sortByDesc _ s _).mp (List.take_subset _ _ h)

theorem getBestStrategies_length (isl : Island) (n : Nat) :
    (getBestStrategies isl n).length ≤ n := by
  unfold getBestStrategies
  split
  · simp
  · simpa using Nat.min_le_left _ _

/-- An insight log entry: the fields the curation logic reads from the
Python dict (`content`, `generation`, `strategy_score`). -/
structure Insight where
  content : String
  generation : Nat
  strategy_score : ℚ
deriving DecidableEq

/-- `EvolutionaryDatabase` state. -/
structure EvolutionaryDatabase where
  feature_map : FeatureMap
  num_islands : Nat
  categories : List String
  islands : List Island
  rejected_archive : List Strategy
  insights : List Insight
  current_generation : Nat

/-! ### C9: `get_recent_insights` -/

/-- `EvolutionaryDatabase.get_recent_insights`: the Python slice
`insights[-n:]` guarded by a non-emptiness check.  For `n = 0` the slice
`[-0:]` is `[0:]`, i.e. the whole list. -/
def getRecentInsights (insights : List Insight) (n : Nat) : List Insight :=
  if insights.isEmpty then []
  else if n = 0 then insights
  else insights.drop (insights.length - n)

def ins9 : Insight := ⟨"momentum decay matters", 3, 1⟩

/-- C9 evaluation at the failing input: with a one-entry log,
`get_recent_insights 0` returns the whole log instead of the last
`min 0 1 = 0` entries; for `n ≥ 1` the last-`n` behaviour is as specified. -/
theorem getRecentInsights_zero_bug :
    getRecentInsights [ins9] 0 = [ins9] ∧
    ([ins9] : List Insight) ≠ [] ∧
    getRecentInsights [ins9] 1 = [ins9] ∧
    getRecentInsights [ins9] 5 = [ins9] :=
  ⟨rfl, by simp, rfl, rfl⟩

/-! ### C4: `add_strategy` bookkeeping -/

/-- `EvolutionaryDatabase.add_strategy`.  The Python code appends the
candidate object to the island population before `FeatureMap.add` mutates it
in place; because the list holds a reference, the final population entry is
the fully updated candidate, which is what the model appends.  A `none`
result models an escaped exception from `FeatureMap.add`. -/
def dbAddStrategy (db : EvolutionaryDatabase) (s : Strategy) (islandId : Nat) :
    Option (Bool × EvolutionaryDatabase) :=
  match db.islands.get? islandId with
  | none => none
  | some island =>
    match db.feature_map.add s (some islandId) with
    | none => none
    | some (added, s', fm') =>
      some (added,
        { db with
          feature_map := fm',
          islands := db.islands.set islandId
            { island with
              population := island.population ++ [s'],
              strategies_on_map :=
                if added then island.strategies_on_map ++ [s']
                else island.strategies_on_map },
          rejected_archive :=
            if added then db.rejected_archive else db.rejected_archive ++ [s'] })

theorem get?_set_same {α : Type} : ∀ (l : List α) (i : Nat) (a b : α),
    l.get? i = some b → (l.set i a).get? i = some a
  | [], i, _, _, h => by simp at h
  | x :: xs, 0, a, b, _ => rfl
  | x :: xs, i + 1, a, b, h => by
    simpa using get?_set_same xs i a b (by simpa using h)

/-- C4. `add_strategy` appends the candidate to the island's population
unconditionally, returns exactly the archive admission flag, appends to the
island's elite set only on success, and appends to the rejected pool (leaving
the elite set unchanged) only on failure. -/
theorem addStrategy_spec (db : EvolutionaryDatabase) (s : Strategy) (islandId : Nat)
    (island : Island) (added : Bool) (db' : EvolutionaryDatabase)
    (hisl : db.islands.get? islandId = some island)
    (h : dbAddStrategy db s islandId = some (added, db')) :
    ∃ s' fm', db.feature_map.add s (some islandId) = some (added, s', fm') ∧
      db'.feature_map = fm' ∧
      ∃ island', db'.islands.get? islandId = some island' ∧
        island'.population = island.population ++ [s'] ∧
        (added = true → island'.strategies_on_map = island.strategies_on_map ++ [s'] ∧
          db'.rejected_archive = db.rejected_archive) ∧
        (added = false → island'.strategies_on_map = island.strategies_on_map ∧
          db'.rejected_archive = db.rejected_archive ++ [s']) := by
  unfold dbAddStrategy at h
  rw [hisl] at h
  cases hadd : db.feature_map.add s (some islandId) with
  | none => rw [hadd] at h; simp at h
  | some t =>
    obtain ⟨added2, s', fm'⟩ := t
    rw [hadd] at h
    simp only [Option.some.injEq, Prod.mk.injEq] at h
    obtain ⟨hb, hdb⟩ := h
    subst hb
    subst hdb
    refine ⟨s', fm', rfl, rfl, ?_⟩
    refine ⟨_, get?_set_same _ _ _ _ hisl, rfl, ?_, ?_⟩
    · intro ha; subst ha; exact ⟨by simp, by simp⟩
    · intro ha; subst ha; exact ⟨by simp, by simp⟩

def isl4 : Island := ⟨0, "momentum", [], []⟩

def s4 : Strategy := mkStrategy "s4" 1 none

def s4' : Strategy := ⟨[], some [], 1, 0, 0, none, "s4"⟩

def db4 : EvolutionaryDatabase :=
  ⟨⟨[], emptyArchive, 0, 0, 0⟩, 1, ["momentum"], [isl4], [], [], 0⟩

def db4' : EvolutionaryDatabase :=
  ⟨⟨[], setCell emptyArchive [] (some s4'), 1, 0, 0⟩, 1, ["momentum"],
    [⟨0, "momentum", [s4'], [s4']⟩], [], [], 0⟩

theorem addStrategy_spec_witness :
    db4.islands.get? 0 = some isl4 ∧
    ∃ s' fm', db4.feature_map.add s4 (some 0) = some (true, s', fm') ∧
      db4'.feature_map = fm' ∧
      ∃ island', db4'.islands.get? 0 = some island' ∧
        island'.population = isl4.population ++ [s'] ∧
        (true = true → island'.strategies_on_map = isl4.strategies_on_map ++ [s'] ∧
          db4'.rejected_archive = db4.rejected_archive) ∧
        (true = false → island'.strategies_on_map = isl4.strategies_on_map ∧
          db4'.rejected_archive = db4.rejected_archive ++ [s']) :=
  ⟨rfl, addStrategy_spec db4 s4 0 isl4 true db4' rfl rfl⟩

/-! ### C6: migration -/

/-- Python's `enumerate`, starting at `n`. -/
def enumFrom {α : Type} (n : Nat) : List α → List (Nat × α)
  | [] => []
  | x :: xs => (n, x) :: enumFrom (n + 1) xs

/-- The migrants a target island receives: for each source position in
order, the source's migrant list unless the source is the target itself. -/
def otherMigrants (migrLists : List (Nat × List Strategy)) (tid : Nat) : List Strategy :=
  match migrLists with
  | [] => []
  | (j, ms) :: rest => (if j = tid then [] else ms) ++ otherMigrants rest tid

/-- The enumerated per-island migrant lists computed before distribution. -/
def migrantLists (db : EvolutionaryDatabase) (k : Nat) : List (Nat × List Strategy) :=
  enumFrom 0 (db.islands.map (fun isl => getBestStrategies isl k))

/-- `EvolutionaryDatabase.migrate_strategies`: each island's top
`numMigrants` elites are appended to every other island's population. -/
def migrateStrategies (db : EvolutionaryDatabase) (numMigrants : Nat) : EvolutionaryDatabase :=
  { db with islands := db.islands.map (fun target =>
      { target with population :=
          target.population ++ otherMigrants (migrantLists db numMigrants) target.island_id }) }

theorem mem_otherMigrants_enumFrom :
    ∀ (ls : List (List Strategy)) (n tid : Nat) (m : Strategy),
    m ∈ otherMigrants (enumFrom n ls) tid ↔
      ∃ j ms, ls.get? j = some ms ∧ n + j ≠ tid ∧ m ∈ ms := by
  intro ls
  induction ls with
  | nil =>
    intro n tid m
    simp [otherMigrants, enumFrom]
  | cons l0 rest ih =>
    intro n tid m
    simp only [enumFrom, otherMigrants, List.mem_append]
    constructor
    · rintro (hm | hm)
      · refine ⟨0, l0, rfl, ?_, ?_⟩
        · intro hEq
          rw [Nat.add_zero] at hEq
          rw [if_pos hEq] at hm
          simp at hm
        · by_cases hEq : n = tid
          · rw [if_pos hEq] at hm; simp at hm
          · rwa [if_neg hEq] at hm
      · obtain ⟨j, ms, hms, hne, hmem⟩ := (ih (n + 1) tid m).mp hm
        refine ⟨j + 1, ms, by simpa using hms, ?_, hmem⟩
        omega
    · rintro ⟨j, ms, hms, hne, hmem⟩
      match j, hms, hne with
      | 0, hms, hne =>
        left
        have hl : l0 = ms := by simpa using hms
        subst hl
        rw [Nat.add_zero] at hne
        rwa [if_neg hne]
      | j + 1, hms, hne =>
        right
        exact (ih (n + 1) tid m).mpr ⟨j, ms, by simpa using hms, by omega, hmem⟩

/-- C6. `migrate_strategies` leaves the archive, the insight log, the
rejected pool, and every island's elite set unchanged; its only mutation is
that each island's population is extended by exactly the top-`k` elites of
every *other* island (values unchanged, hence with unchanged generation
numbers, since they are members of the source's elite list). -/
theorem migrate_frame_spec (db : EvolutionaryDatabase) (k : Nat) :
    (migrateStrategies db k).feature_map = db.feature_map ∧
    (migrateStrategies db k).insights = db.insights ∧
    (migrateStrategies db k).rejected_archive = db.rejected_archive ∧
    (migrateStrategies db k).islands.length = db.islands.length ∧
    ∀ i isl, db.islands.get? i = some isl →
      ∃ isl', (migrateStrategies db k).islands.get? i = some isl' ∧
        isl'.strategies_on_map = isl.strategies_on_map ∧
        isl'.island_id = isl.island_id ∧
        isl'.category = isl.category ∧
        ∃ extra, isl'.population = isl.population ++ extra ∧
          (∀ m ∈ extra, ∃ j src, db.islands.get? j = some src ∧ j ≠ isl.island_id ∧
            m ∈ getBestStrategies src k ∧ m ∈ src.strategies_on_map) ∧
          (∀ j src, db.islands.get? j = some src → j ≠ isl.island_id →
            ∀ m ∈ getBestStrategies src k, m ∈ extra) := by
  refine ⟨rfl, rfl, rfl, by simp [migrateStrategies], ?_⟩
  intro i isl hisl
  refine ⟨{ isl with population :=
      isl.population ++ otherMigrants (migrantLists db k) isl.island_id },
    ?_, rfl, rfl, rfl, ?_⟩
  · show (db.islands.map _).get? i = _
    rw [List.get?_map, hisl]
    rfl
  · refine ⟨otherMigrants (migrantLists db k) isl.island_id, rfl, ?_, ?_⟩
    · intro m hm
      obtain ⟨j, ms, hms, hne, hmem⟩ :=
        (mem_otherMigrants_enumFrom _ 0 isl.island_id m).mp hm
      rw [List.get?_map] at hms
      cases hsrc : db.islands.get? j with
      | none => rw [hsrc] at hms; simp at hms
      | some src =>
        rw [hsrc] at hms
        have hms' : getBestStrategies src k = ms := by simpa using hms
        subst hms'
        exact ⟨j, src, hsrc, by simpa using hne, hmem,
          getBestStrategies_subset src k m hmem⟩
    · intro j src hsrc hne m hm
      refine (mem_otherMigrants_enumFrom _ 0 isl.island_id m).mpr
        ⟨j, getBestStrategies src k, ?_, by simpa using hne, hm⟩
      rw [List.get?_map, hsrc]
      rfl

def eliteA : Strategy := mkStrategy "eA" 2 none

def eliteB : Strategy := mkStrategy "eB" 1 none

def islA : Island := ⟨0, "a", [eliteA], [eliteA]⟩

def islB : Island := ⟨1, "b", [eliteB], [eliteB]⟩

def db6 : EvolutionaryDatabase :=
  ⟨⟨[], emptyArchive, 0, 0, 0⟩, 2, ["a"], [islA, islB], [], [], 0⟩

theorem migrate_frame_spec_witness :
    db6.islands.get? 1 = some islB ∧
    ∃ isl', (migrateStrategies db6 1).islands.get? 1 = some isl' ∧
      isl'.strategies_on_map = islB.strategies_on_map ∧
      isl'.island_id = islB.island_id ∧
      isl'.category = islB.category ∧
      ∃ extra, isl'.population = islB.population ++ extra ∧
        (∀ m ∈ extra, ∃ j src, db6.islands.get? j = some src ∧ j ≠ islB.island_id ∧
          m ∈ getBestStrategies src 1 ∧ m ∈ src.strategies_on_map) ∧
        (∀ j src, db6.islands.get? j = some src → j ≠ islB.island_id →
          ∀ m ∈ getBestStrategies src 1, m ∈ extra) :=
  ⟨rfl, (migrate_frame_spec db6 1).2.2.2.2 1 islB rfl⟩

/-! ### C5: island initialization -/

/-- The initialization loop: for each `(index, category, seed)` triple,
create the island, offer the seed to the archive, and record the
(`add`-mutated) seed as the island's single population member and single
elite — the Python lists alias the seed object, so after the in-place update
they hold the mutated value.  `none` models an exception escaping from
`FeatureMap.add`. -/
def initLoop (fm : FeatureMap) : List (Nat × String × Strategy) → Option (List Island × FeatureMap)
  | [] => some ([], fm)
  | (i, cat, seed) :: rest =>
    match fm.add seed (some i) with
    | none => none
    | some (_, s2, fm') =>
      match initLoop fm' rest with
      | none => none
      | some (isls, fmF) => some (⟨i, cat, [s2], [s2]⟩ :: isls, fmF)

/-- `EvolutionaryDatabase.initialize_islands`: `ValueError` when the seed
count differs from `num_islands`, then one island per element of
`zip(categories + ["benchmark"], seeds)` (`zip` truncates to the shorter
list). -/
def initializeIslands (db : EvolutionaryDatabase) (seeds : List Strategy) :
    Option EvolutionaryDatabase :=
  if seeds.length ≠ db.num_islands then none
  else
    match initLoop db.feature_map (enumFrom 0 ((db.categories ++ ["benchmark"]).zip seeds)) with
    | none => none
    | some (isls, fm') =>
      some { db with islands := db.islands ++ isls, feature_map := fm' }

theorem enumFrom_get? {α : Type} :
    ∀ (l : List α) (n j : Nat),
    (enumFrom n l).get? j = (l.get? j).map (fun x => (n + j, x))
  | [], n, j => by simp [enumFrom]
  | x :: xs, n, 0 => by simp [enumFrom]
  | x :: xs, n, j + 1 => by
    simp only [enumFrom, List.get?]
    rw [enumFrom_get? xs (n + 1) j]
    cases xs.get? j <;> simp <;> omega

theorem enumFrom_length {α : Type} :
    ∀ (l : List α) (n : Nat), (enumFrom n l).length = l.length
  | [], _ => rfl
  | x :: xs, n => by simp [enumFrom, enumFrom_length xs (n + 1)]

theorem zip_get?_some {α β : Type} :
    ∀ (l1 : List α) (l2 : List β) (j : Nat) (a : α) (b : β),
    l1.get? j = some a → l2.get? j = some b → (l1.zip l2).get? j = some (a, b)
  | [], _, j, _, _, ha, _ => by simp at ha
  | _ :: _, [], j, _, _, _, hb => by simp at hb
  | x :: xs, y :: ys, 0, a, b, ha, hb => by
    have hx : x = a := by simpa using ha
    have hy : y = b := by simpa using hb
    subst hx; subst hy
    rfl
  | x :: xs, y :: ys, j + 1, a, b, ha, hb => by
    simpa using zip_get?_some xs ys j a b (by simpa using ha) (by simpa using hb)

theorem initLoop_spec :
    ∀ (fm : FeatureMap) (pairs : List (Nat × String × Strategy))
      (isls : List Island) (fmF : FeatureMap),
    initLoop fm pairs = some (isls, fmF) →
    isls.length = pairs.length ∧
    ∀ j idx cat seed, pairs.get? j = some (idx, cat, seed) →
      ∃ s2, isls.get? j = some ⟨idx, cat, [s2], [s2]⟩ ∧
        s2.strategy_id = seed.strategy_id ∧ s2.island_id = idx ∧
        s2.combined_score = seed.combined_score := by
  intro fm pairs
  induction pairs generalizing fm with
  | nil =>
    intro isls fmF h
    simp only [initLoop, Option.some.injEq, Prod.mk.injEq] at h
    obtain ⟨h1, -⟩ := h
    subst h1
    exact ⟨rfl, by intro j idx cat seed hj; simp at hj⟩
  | cons p rest ih =>
    intro isls fmF h
    obtain ⟨i, cat0, seed0⟩ := p
    simp only [initLoop] at h
    split at h
    · simp at h
    · rename_i b0 s2 fm' hadd
      split at h
      · simp at h
      · rename_i u isls' fmF' hrest
        simp only [Option.some.injEq, Prod.mk.injEq] at h
        obtain ⟨hisls, -⟩ := h
        subst hisls
        obtain ⟨hlen, hih⟩ := ih fm' isls' fmF' hrest
        refine ⟨by simpa using hlen, ?_⟩
        intro j idx cat seed hj
        match j, hj with
        | 0, hj =>
          have hp : i = idx ∧ cat0 = cat ∧ seed0 = seed := by simpa using hj
          obtain ⟨h1, h2, h3⟩ := hp
          subst h1; subst h2; subst h3
          obtain ⟨fv, key, -, -, hs2⟩ := add_updates fm seed0 (some i) b0 s2 fm' hadd
          subst hs2
          exact ⟨_, rfl, rfl, rfl, rfl⟩
        | j + 1, hj =>
          simpa using hih j idx cat seed (by simpa using hj)

/-- C5 (amended).  `initialize_islands` raises exactly when the seed count
differs from `num_islands` (assuming each admission call returns).  When the
counts match, it creates `min (numCategories + 1) num_islands` islands —
`zip` silently truncates, so one island per category plus a benchmark island
arises only when `num_islands = numCategories + 1`.  Island `j` pairs the
`j`-th element of `categories ++ ["benchmark"]` with the `j`-th seed, and
holds that seed (score and id unchanged, archive admission attempted via
`add`) as its sole population member and sole elite. -/
theorem initializeIslands_amended (db : EvolutionaryDatabase) (seeds : List Strategy) :
    (seeds.length ≠ db.num_islands → initializeIslands db seeds = none) ∧
    (∀ db', initializeIslands db seeds = some db' →
      seeds.length = db.num_islands ∧
      db'.islands.length = db.islands.length + min (db.categories.length + 1) seeds.length ∧
      ∀ j cat seed, (db.categories ++ ["benchmark"]).get? j = some cat →
        seeds.get? j = some seed →
        ∃ s2, db'.islands.get? (db.islands.length + j) = some ⟨j, cat, [s2], [s2]⟩ ∧
          s2.strategy_id = seed.strategy_id ∧ s2.island_id = j ∧
          s2.combined_score = seed.combined_score) := by
  constructor
  · intro hne
    unfold initializeIslands
    rw [if_pos hne]
  · intro db' h
    unfold initializeIslands at h
    split at h
    · simp at h
    · rename_i hcount
      refine ⟨by omega, ?_⟩
      cases hloop : initLoop db.feature_map
          (enumFrom 0 ((db.categories ++ ["benchmark"]).zip seeds)) with
      | none => rw [hloop] at h; simp at h
      | some u =>
        obtain ⟨isls, fm'⟩ := u
        rw [hloop] at h
        simp only [Option.some.injEq] at h
        subst h
        obtain ⟨hlen, hspec⟩ := initLoop_spec _ _ _ _ hloop
        constructor
        · show (db.islands ++ isls).length = _
          rw [List.length_append, hlen, enumFrom_length, List.length_zip]
          simp [Nat.add_comm, Nat.min_comm]
        · intro j cat seed hcat hseed
          have hpair : ((db.categories ++ ["benchmark"]).zip seeds).get? j =
              some (cat, seed) := zip_get?_some _ _ j cat seed hcat hseed
          have henum : (enumFrom 0 ((db.categories ++ ["benchmark"]).zip seeds)).get? j =
              some (j, cat, seed) := by
            rw [enumFrom_get?, hpair]
            simp
          obtain ⟨s2, hs2, hid, hisl, hscore⟩ := hspec j j cat seed henum
          refine ⟨s2, ?_, hid, hisl, hscore⟩
          rw [List.get?_append_right (Nat.le_add_right _ _)]
          simpa using hs2

def seed5 : Strategy := mkStrategy "seed" 1 none

def seed5' : Strategy := ⟨[], some [], 1, 0, 0, none, "seed"⟩

def db5 : EvolutionaryDatabase :=
  ⟨⟨[], emptyArchive, 0, 0, 0⟩, 1, ["a", "b"], [], [], [], 0⟩

def db5' : EvolutionaryDatabase :=
  ⟨⟨[], setCell emptyArchive [] (some seed5'), 1, 0, 0⟩, 1, ["a", "b"],
    [⟨0, "a", [seed5'], [seed5']⟩], [], [], 0⟩

/-- C5 counterexample.  With two categories but `num_islands = 1`, a
matching one-seed call succeeds and creates exactly one island — not one
island per category plus a reserved benchmark island (which would be
three). -/
theorem initializeIslands_zip_cex :
    Option.map (fun d => d.islands.length) (initializeIslands db5 [seed5]) = some 1 ∧
    [seed5].length = db5.num_islands ∧
    db5.categories.length + 1 = 3 ∧
    (1 : Nat) ≠ 3 :=
  ⟨rfl, rfl, rfl, by decide⟩

theorem initializeIslands_amended_witness :
    (([] : List Strategy).length ≠ db5.num_islands ∧ initializeIslands db5 [] = none) ∧
    ([seed5].length = db5.num_islands ∧
      db5'.islands.length = db5.islands.length + min (db5.categories.length + 1) 1 ∧
      ∃ s2, db5'.islands.get? (db5.islands.length + 0) = some ⟨0, "a", [s2], [s2]⟩ ∧
        s2.strategy_id = seed5.strategy_id ∧ s2.island_id = 0 ∧
        s2.combined_score = seed5.combined_score) := by
  constructor
  · exact ⟨by decide, (initializeIslands_amended db5 []).1 (by decide)⟩
  · obtain ⟨h1, h2, h3⟩ := (initializeIslands_amended db5 [seed5]).2 db5' rfl
    exact ⟨h1, h2, h3 0 "a" seed5 rfl rfl⟩

/-! ### C3: cousin sampling -/

/-- The explicit random stream standing in for numpy's global RNG: each
consumed integer models one primitive draw, so every run of the Python code
corresponds to some stream. -/
abbrev Rng := List Int

def rngNext (r : Rng) : Int × Rng :=
  match r with
  | [] => (0, [])
  | x :: rest => (x, rest)

/-- `val ^ (1 << p)` on Python (two's-complement) integers: flip bit `p`. -/
def flipBit (val : Int) (p : Nat) : Int :=
  if (Int.ediv val (2 ^ p)) % 2 = 1 then val - 2 ^ p else val + 2 ^ p

/-- The `for _ in range(num_flips)` loop: each draw is
`np.random.randint(num_bits)`. -/
def flipBits (val : Int) (numBits : Nat) : Nat → Rng → Int × Rng
  | 0, rng => (val, rng)
  | k + 1, rng =>
    let (d, rng') := rngNext rng
    flipBits (flipBit val ((d % (numBits : Int)).toNat)) numBits k rng'

/-- Perturbation of a single coordinate in `_sample_diverse_cousins`.
For a continuous dimension the stream element models the already-floored
Gaussian draw `floor(normal(parent_i, sigma))`, which is then clipped to
`[0, bins-1]`; for a binary dimension `max(1, int(num_bits*bitflip_rate))`
bits are flipped and the value reduced mod `bins` (`none` models the
ZeroDivisionError when `bins = 0`); any other dimension type is left
untouched by the loop. -/
def perturbOne (dim : FeatureDimension) (c : Int) (sigma bitflipRate : ℚ) (rng : Rng) :
    Option (Int × Rng) :=
  if dim.type = "continuous" then
    let (d, rng') := rngNext rng
    some (min (max d 0) ((dim.bins : Int) - 1), rng')
  else if dim.type = "binary" then
    let numBits := if 1 < dim.bins then Nat.log 2 dim.bins else 1
    let numFlips := (max 1 (pyInt ((numBits : ℚ) * bitflipRate))).toNat
    match flipBits c numBits numFlips rng with
    | (v, rng') => if dim.bins = 0 then none else some (v % (dim.bins : Int), rng')
  else some (c, rng)

/-- `perturbed[i] = ...` over all dimensions; a parent vector shorter than
the dimension list raises (IndexError), extra coordinates are kept. -/
def perturbCoords (sigma bitflipRate : ℚ) :
    List FeatureDimension → List Int → Rng → Option (List Int × Rng)
  | [], rest, rng => some (rest, rng)
  | _ :: _, [], _ => none
  | dim :: dims, c :: cs, rng =>
    match perturbOne dim c sigma bitflipRate rng with
    | none => none
    | some (c', rng') =>
      match perturbCoords sigma bitflipRate dims cs rng' with
      | none => none
      | some (cs', rng'') => some (c' :: cs', rng'')

/-- `if strategy and strategy not in cousins: cousins.append(strategy)`. -/
def accUpdate (fm : FeatureMap) (pv : List Int) (acc : List Strategy) : List Strategy :=
  match fm.get pv with
  | some strat => if strat ∈ acc then acc else acc ++ [strat]
  | none => acc

/-- The `for _ in range(num_samples * 3)` attempt loop of
`_sample_diverse_cousins`. -/
def diverseLoop (fm : FeatureMap) (parentVec : List Int) (numSamples : Nat)
    (sigma bitflipRate : ℚ) :
    Nat → List Strategy → Rng → Option (List Strategy × Rng)
  | 0, acc, rng => some (acc, rng)
  | fuel + 1, acc, rng =>
    match perturbCoords sigma bitflipRate fm.dimensions parentVec rng with
    | none => none
    | some (pv, rng') =>
      if numSamples ≤ (accUpdate fm pv acc).length then some (accUpdate fm pv acc, rng')
      else diverseLoop fm parentVec numSamples sigma bitflipRate fuel (accUpdate fm pv acc) rng'

/-- `EvolutionaryDatabase._sample_diverse_cousins`. -/
def sampleDiverseCousins (fm : FeatureMap) (parentVec : List Int) (numSamples : Nat)
    (sigma bitflipRate : ℚ) (rng : Rng) : Option (List Strategy × Rng) :=
  match diverseLoop fm parentVec numSamples sigma bitflipRate (numSamples * 3) [] rng with
  | none => none
  | some (cousins, rng') => some (cousins.take numSamples, rng')

/-- `np.random.choice(xs, size=k, replace=False)`: `k` draws without
replacement, each stream element selecting an index into the remaining
pool. -/
def sampleNoReplace {α : Type} : List α → Nat → Rng → List α × Rng
  | _, 0, rng => ([], rng)
  | xs, k + 1, rng =>
    let (d, rng') := rngNext rng
    match xs.get? ((d % (xs.length : Int)).toNat) with
    | none => ([], rng')
    | some x =>
      let idx := ((d % (xs.length : Int)).toNat)
      match sampleNoReplace (xs.take idx ++ xs.drop (idx + 1)) k rng' with
      | (rest, rng'') => (x :: rest, rng'')

/-- The diverse-cousin block of `sample_cousins`: skipped when the parent's
cached feature vector is `None` or empty (Python tuple falsiness). -/
def diversePartOf (db : EvolutionaryDatabase) (parent : Strategy) (numDiverse : Nat)
    (sigma bitflipRate : ℚ) (rng : Rng) : Option (List Strategy × Rng) :=
  match parent.feature_vector with
  | some fv =>
    if fv.isEmpty then some ([], rng)
    else sampleDiverseCousins db.feature_map fv numDiverse sigma bitflipRate rng
  | none => some ([], rng)

/-- `EvolutionaryDatabase.sample_cousins`. -/
def sampleCousins (db : EvolutionaryDatabase) (parent : Strategy) (islandId : Nat)
    (numBest numDiverse numRandom : Nat) (sigma bitflipRate : ℚ) (rng : Rng) :
    Option (List Strategy) :=
  match db.islands.get? islandId with
  | none => none
  | some island =>
    match diversePartOf db parent numDiverse sigma bitflipRate rng with
    | none => none
    | some (diversePart, rng') =>
      some
        (((getBestStrategies island (numBest * 2)).filter
            (fun s => s.strategy_id != parent.strategy_id)).take numBest ++
          diversePart ++
          (if (island.population.filter
                (fun s => s.strategy_id != parent.strategy_id)).isEmpty then []
           else (sampleNoReplace
              (island.population.filter (fun s => s.strategy_id != parent.strategy_id))
              (min numRandom (island.population.filter
                (fun s => s.strategy_id != parent.strategy_id)).length) rng').1))

theorem get_eq_some_archive (fm : FeatureMap) (v : List Int) (s : Strategy)
    (h : fm.get v = some s) : ∃ key, fm.archive key = some s := by
  unfold FeatureMap.get at h
  split at h
  · simp at h
  · exact ⟨_, h⟩

theorem accUpdate_mem (fm : FeatureMap) (pv : List Int) (acc : List Strategy)
    (x : Strategy) (h : x ∈ accUpdate fm pv acc) :
    x ∈ acc ∨ ∃ key, fm.archive key = some x := by
  unfold accUpdate at h
  split at h
  · rename_i strat hget
    split at h
    · exact Or.inl h
    · rcases List.mem_append.mp h with hx | hx
      · exact Or.inl hx
      · have hxs : x = strat := by simpa using hx
        subst hxs
        exact Or.inr (get_eq_some_archive fm pv x hget)
  · exact Or.inl h

theorem diverseLoop_mem (fm : FeatureMap) (parentVec : List Int) (numSamples : Nat)
    (sigma bitflipRate : ℚ) :
    ∀ (fuel : Nat) (acc : List Strategy) (rng : Rng) (cs : List Strategy) (rng' : Rng),
    diverseLoop fm parentVec numSamples sigma bitflipRate fuel acc rng = some (cs, rng') →
    ∀ x ∈ cs, x ∈ acc ∨ ∃ key, fm.archive key = some x := by
  intro fuel
  induction fuel with
  | zero =>
    intro acc rng cs rng' h x hx
    simp only [diverseLoop, Option.some.injEq, Prod.mk.injEq] at h
    obtain ⟨h1, -⟩ := h
    subst h1
    exact Or.inl hx
  | succ n ih =>
    intro acc rng cs rng' h x hx
    simp only [diverseLoop] at h
    split at h
    · simp at h
    · rename_i pv rng1 hperturb
      split at h
      · simp only [Option.some.injEq, Prod.mk.injEq] at h
        obtain ⟨h1, -⟩ := h
        subst h1
        exact accUpdate_mem fm pv acc x hx
      · rcases ih _ _ _ _ h x hx with hin | harch
        · exact accUpdate_mem fm pv acc x hin
        · exact Or.inr harch

theorem sampleNoReplace_spec {α : Type} :
    ∀ (k : Nat) (xs : List α) (rng : Rng),
    (sampleNoReplace xs k rng).1.length ≤ k ∧
    ∀ x ∈ (sampleNoReplace xs k rng).1, x ∈ xs
  | 0, xs, rng => ⟨Nat.le_refl 0, by intro x hx; simp [sampleNoReplace] at hx⟩
  | k + 1, xs, rng => by
    simp only [sampleNoReplace]
    split
    · exact ⟨by simp, by intro x hx; simp at hx⟩
    · rename_i x0 hx0
      constructor
      · simpa using (sampleNoReplace_spec k _ _).1
      · intro x hx
        rcases List.mem_cons.mp (by simpa using hx) with hx | hx
        · subst hx
          exact List.get?_mem hx0
        · have hmem := (sampleNoReplace_spec k _ _).2 x hx
          rcases List.mem_append.mp hmem with hm | hm
          · exact List.take_subset _ _ hm
          · exact List.drop_subset _ _ hm

theorem diversePartOf_spec (db : EvolutionaryDatabase) (parent : Strategy)
    (numDiverse : Nat) (sigma bitflipRate : ℚ) (rng : Rng)
    (dc : List Strategy) (rng' : Rng)
    (h : diversePartOf db parent numDiverse sigma bitflipRate rng = some (dc, rng')) :
    dc.length ≤ numDiverse ∧
    ∀ s ∈ dc, ∃ key, db.feature_map.archive key = some s := by
  unfold diversePartOf at h
  split at h
  · rename_i fv hfv
    split at h
    · simp only [Option.some.injEq, Prod.mk.injEq] at h
      obtain ⟨h1, -⟩ := h
      subst h1
      exact ⟨Nat.zero_le _, by intro s hs; simp at hs⟩
    · unfold sampleDiverseCousins at h
      split at h
      · simp at h
      · rename_i cousins rng1 hloop
        simp only [Option.some.injEq, Prod.mk.injEq] at h
        obtain ⟨h1, -⟩ := h
        subst h1
        refine ⟨by simpa using Nat.min_le_left _ _, ?_⟩
        intro s hs
        rcases diverseLoop_mem db.feature_map fv numDiverse sigma bitflipRate _ [] rng
            cousins rng1 hloop s (List.take_subset _ _ hs) with hin | harch
        · simp at hin
        · exact harch
  · simp only [Option.some.injEq, Prod.mk.injEq] at h
    obtain ⟨h1, -⟩ := h
    subst h1
    exact ⟨Nat.zero_le _, by intro s hs; simp at hs⟩

/-- C3 (amended).  `sample_cousins` returns at most
`numBest + numDiverse + numRandom` candidates; the best-cousin and
random-cousin components are filtered by strategy id and never contain the
parent's id, while the diverse-cousin component consists of archive
occupants looked up near the parent and *may* contain the parent itself
(e.g. when the perturbed cell is the parent's own cell). -/
theorem sampleCousins_amended (db : EvolutionaryDatabase) (parent : Strategy)
    (islandId numBest numDiverse numRandom : Nat) (sigma bitflipRate : ℚ) (rng : Rng)
    (island : Island) (cs : List Strategy)
    (hisl : db.islands.get? islandId = some island)
    (h : sampleCousins db parent islandId numBest numDiverse numRandom
      sigma bitflipRate rng = some cs) :
    cs.length ≤ numBest + numDiverse + numRandom ∧
    ∃ bc dc rc, cs = bc ++ dc ++ rc ∧
      bc.length ≤ numBest ∧ dc.length ≤ numDiverse ∧ rc.length ≤ numRandom ∧
      (∀ s ∈ bc, s.strategy_id ≠ parent.strategy_id) ∧
      (∀ s ∈ rc, s.strategy_id ≠ parent.strategy_id) ∧
      (∀ s ∈ dc, ∃ key, db.feature_map.archive key = some s) := by
  unfold sampleCousins at h
  rw [hisl] at h
  cases hdiv : diversePartOf db parent numDiverse sigma bitflipRate rng with
  | none => rw [hdiv] at h; simp at h
  | some t =>
    obtain ⟨dc, rng'⟩ := t
    rw [hdiv] at h
    simp only [Option.some.injEq] at h
    subst h
    obtain ⟨hdlen, hdmem⟩ := diversePartOf_spec db parent numDiverse sigma bitflipRate
      rng dc rng' hdiv
    have hbc : ∀ s ∈ ((getBestStrategies island (numBest * 2)).filter
        (fun s => s.strategy_id != parent.strategy_id)).take numBest,
        s.strategy_id ≠ parent.strategy_id := by
      intro s hs
      have := List.mem_filter.mp (List.take_subset _ _ hs)
      exact bne_iff_ne.mp this.2
    have hbclen : (((getBestStrategies island (numBest * 2)).filter
        (fun s => s.strategy_id != parent.strategy_id)).take numBest).length ≤ numBest := by
      simpa using Nat.min_le_left _ _
    set pop := island.population.filter (fun s => s.strategy_id != parent.strategy_id)
      with hpop
    have hrc : ∀ s ∈ (if pop.isEmpty then []
        else (sampleNoReplace pop (min numRandom pop.length) rng').1),
        s.strategy_id ≠ parent.strategy_id := by
      intro s hs
      split at hs
      · simp at hs
      · have hmem := (sampleNoReplace_spec (min numRandom pop.length) pop rng').2 s hs
        rw [hpop] at hmem
        exact bne_iff_ne.mp (List.mem_filter.mp hmem).2
    have hrclen : (if pop.isEmpty then []
        else (sampleNoReplace pop (min numRandom pop.length) rng').1).length
        ≤ numRandom := by
      split
      · simp
      · exact le_trans (sampleNoReplace_spec (min numRandom pop.length) pop rng').1
          (Nat.min_le_left _ _)
    refine ⟨?_, _, dc, _, rfl, hbclen, hdlen, hrclen, hbc, hrc, hdmem⟩
    simp only [List.length_append]
    omega

def parent3 : Strategy := ⟨[], some [0], 0, 0, 0, none, "p"⟩

def dim3 : FeatureDimension := ⟨"bits", "binary", 1, none⟩

def fm3 : FeatureMap := ⟨[dim3], setCell emptyArchive [0] (some parent3), 1, 0, 0⟩

def isl3 : Island := ⟨0, "a", [parent3], [parent3]⟩

def db3 : EvolutionaryDatabase := ⟨fm3, 1, ["a"], [isl3], [], [], 0⟩

/-- C3 counterexample.  On a one-dimensional binary grid with a single bin,
every bit-flip perturbation lands back on the parent's own cell, so the
diverse-cousin lookup returns the parent itself: the result of
`sample_cousins` contains a candidate whose `strategy_id` equals the
parent's, refuting "contains no candidate whose strategy_id equals the
parent's strategy_id". -/
theorem sampleCousins_parent_cex :
    sampleCousins db3 parent3 0 2 3 2 1 (1/4) [] = some [parent3] ∧
    parent3.strategy_id = "p" :=
  ⟨by with_unfolding_all rfl, rfl⟩

theorem sampleCousins_amended_witness :
    db3.islands.get? 0 = some isl3 ∧
    ([parent3].length ≤ 2 + 3 + 2 ∧
      ∃ bc dc rc, [parent3] = bc ++ dc ++ rc ∧
        bc.length ≤ 2 ∧ dc.length ≤ 3 ∧ rc.length ≤ 2 ∧
        (∀ s ∈ bc, s.strategy_id ≠ parent3.strategy_id) ∧
        (∀ s ∈ rc, s.strategy_id ≠ parent3.strategy_id) ∧
        (∀ s ∈ dc, ∃ key, db3.feature_map.archive key = some s)) :=
  ⟨rfl, sampleCousins_amended db3 parent3 0 2 3 2 1 (1/4) [] isl3 [parent3] rfl
    (by with_unfolding_all rfl)⟩

/-! ### C8: insight curation -/

/-- Python's `keyword in content` substring test, expressed through
`splitOn`: a non-empty pattern occurs iff splitting produces more than one
part. -/
def strContains (s pat : String) : Bool := (s.splitOn pat).length != 1

def noveltyKeywords : List String :=
  ["novel", "new", "innovative", "unique", "unexpected",
   "discovered", "breakthrough", "surprising"]

def actionKeywords : List String :=
  ["should", "could", "consider", "implement", "improve",
   "optimize", "add", "remove", "adjust", "modify"]

/-- `EvolutionaryDatabase._calculate_insight_importance`: the four weighted
factors (recency 0.3, performance 0.4, novelty 0.2, actionability 0.1). -/
def insightImportance (curGen : Nat) (ins : Insight) : ℚ :=
  ((ins.generation : ℚ) / ((max curGen 1 : Nat) : ℚ)) * (3/10) +
    max 0 (min 1 ((ins.strategy_score + 5) / 15)) * (2/5) +
    min 1 (((noveltyKeywords.filter
      (fun k => strContains ins.content.toLower k)).length : ℚ) / 3) * (1/5) +
    min 1 (((actionKeywords.filter
      (fun k => strContains ins.content.toLower k)).length : ℚ) / 3) * (1/10)

/-- Whitespace-split token set of a string (Python `content.split()`
discards empty tokens). -/
def tokens (s : String) : Finset String :=
  ((s.split (fun c => c.isWhitespace)).filter (fun t => t != "")).toFinset

/-- The similarity of `_apply_diversity_selection`: Jaccard
`intersection / union` over token sets, `0` when the union is empty. -/
def simQ (a b : String) : ℚ :=
  if ((tokens a) ∪ (tokens b)).card = 0 then 0
  else (((tokens a) ∩ (tokens b)).card : ℚ) / (((tokens a) ∪ (tokens b)).card : ℚ)

/-- The `is_diverse` check: a comparison where either side has no tokens is
skipped (`continue`), otherwise similarity above 1/2 rejects. -/
def isDiverse (c : String) (conts : List String) : Bool :=
  conts.all (fun sc =>
    (tokens c).card == 0 || (tokens sc).card == 0 || decide (simQ c sc ≤ 1/2))

/-- The greedy selection loop, including the append-then-check cap break. -/
def divSelect (m : Nat) :
    List (ℚ × Insight) → List Insight → List String → List Insight × List String
  | [], sel, conts => (sel, conts)
  | (_, ins) :: rest, sel, conts =>
    if isDiverse ins.content.toLower conts then
      if m ≤ (sel ++ [ins]).length then (sel ++ [ins], conts ++ [ins.content.toLower])
      else divSelect m rest (sel ++ [ins]) (conts ++ [ins.content.toLower])
    else divSelect m rest sel conts

/-- The backfill loop (`if insight not in selected`, value equality). -/
def backfill (m : Nat) : List (ℚ × Insight) → List Insight → List Insight
  | [], sel => sel
  | (_, ins) :: rest, sel =>
    if ins ∈ sel then backfill m rest sel
    else if m ≤ (sel ++ [ins]).length then sel ++ [ins]
    else backfill m rest (sel ++ [ins])

/-- `EvolutionaryDatabase._apply_diversity_selection`. -/
def applyDiversitySelection (scored : List (ℚ × Insight)) (m : Nat) : List Insight :=
  if scored.length ≤ m then scored.map (fun p => p.2)
  else
    if (divSelect m scored [] []).1.length < m then backfill m scored (divSelect m scored [] []).1
    else (divSelect m scored [] []).1

/-- The scored log sorted descending by importance (Python's stable sort). -/
def sortedScored (log : List Insight) (curGen : Nat) : List (ℚ × Insight) :=
  sortByDesc (fun p => p.1) (log.map (fun i => (insightImportance curGen i, i)))

/-- `EvolutionaryDatabase.curate_insights`: the value the insight log holds
after the call (unchanged when it does not exceed the cap). -/
def curateInsights (log : List Insight) (curGen : Nat) (m : Nat) : List Insight :=
  if log.length ≤ m then log
  else applyDiversitySelection (sortedScored log curGen) m

/-- The pairwise property selected insights satisfy: token similarity of the
lowercased contents at most 1/2. -/
def simRel (a b : Insight) : Prop :=
  simQ a.content.toLower b.content.toLower ≤ 1/2

theorem simQ_comm (a b : String) : simQ a b = simQ b a := by
  unfold simQ
  rw [Finset.union_comm, Finset.inter_comm]

theorem simQ_le_half_of_left_empty (a b : String) (h : (tokens a).card = 0) :
    simQ a b ≤ 1/2 := by
  unfold simQ
  have ha : tokens a = ∅ := Finset.card_eq_zero.mp h
  rw [ha]
  split
  · norm_num
  · rw [Finset.empty_inter]
    simp only [Finset.card_empty, Nat.cast_zero, zero_div]
    norm_num

theorem simQ_le_half_of_right_empty (a b : String) (h : (tokens b).card = 0) :
    simQ a b ≤ 1/2 := by
  rw [simQ_comm]
  exact simQ_le_half_of_left_empty b a h

theorem isDiverse_spec (c : String) (conts : List String)
    (h : isDiverse c conts = true) : ∀ sc ∈ conts, simQ sc c ≤ 1/2 := by
  intro sc hsc
  have hall := List.all_eq_true.mp h sc hsc
  simp only [Bool.or_eq_true, beq_iff_eq, decide_eq_true_eq] at hall
  rcases hall with (hc | hsc0) | hsim
  · exact simQ_le_half_of_right_empty sc c hc
  · exact simQ_le_half_of_left_empty sc c hsc0
  · rw [simQ_comm]
    exact hsim

theorem divSelect_spec (m : Nat) :
    ∀ (pending : List (ℚ × Insight)) (sel : List Insight) (conts : List String),
    sel.length < m →
    conts = sel.map (fun i => i.content.toLower) →
    List.Pairwise simRel sel →
    (divSelect m pending sel conts).1.length ≤ m ∧
    List.Pairwise simRel (divSelect m pending sel conts).1 ∧
    ∃ t, (divSelect m pending sel conts).1 = sel ++ t
  | [], sel, conts, hlt, _, hpair =>
    ⟨Nat.le_of_lt hlt, hpair, [], by simp [divSelect]⟩
  | (q, ins) :: rest, sel, conts, hlt, hconts, hpair => by
    simp only [divSelect]
    split
    · rename_i hdiv
      have hpair' : List.Pairwise simRel (sel ++ [ins]) := by
        rw [List.pairwise_append]
        refine ⟨hpair, List.pairwise_singleton _ _, ?_⟩
        intro a ha b hb
        have hbi : b = ins := by simpa using hb
        subst hbi
        have hmem : a.content.toLower ∈ conts := by
          rw [hconts]
          exact List.mem_map_of_mem _ ha
        exact isDiverse_spec _ conts hdiv _ hmem
      split
      · rename_i hcap
        refine ⟨?_, hpair', [ins], rfl⟩
        simp only [List.length_append, List.length_singleton]
        omega
      · rename_i hncap
        have hlen' : (sel ++ [ins]).length < m := Nat.lt_of_not_le hncap
        have hconts' : conts ++ [ins.content.toLower] =
            (sel ++ [ins]).map (fun i => i.content.toLower) := by
          rw [List.map_append, hconts]
          rfl
        obtain ⟨h1, h2, t, ht⟩ :=
          divSelect_spec m rest (sel ++ [ins]) (conts ++ [ins.content.toLower])
            hlen' hconts' hpair'
        exact ⟨h1, h2, [ins] ++ t, by rw [ht, List.append_assoc]⟩
    · exact divSelect_spec m rest sel conts hlt hconts hpair

theorem backfill_spec (m : Nat) :
    ∀ (pending : List (ℚ × Insight)) (sel : List Insight),
    sel.length < m →
    (backfill m pending sel).length ≤ m ∧
    (∃ t, backfill m pending sel = sel ++ t ∧ ∀ x ∈ t, ∃ q, (q, x) ∈ pending) ∧
    ((backfill m pending sel).length = m ∨
      ∀ p ∈ pending, p.2 ∈ backfill m pending sel)
  | [], sel, hlt =>
    ⟨Nat.le_of_lt hlt, ⟨[], by simp [backfill], by simp⟩, Or.inr (by simp)⟩
  | (q, ins) :: rest, sel, hlt => by
    simp only [backfill]
    split
    · rename_i hin
      obtain ⟨h1, ⟨t, ht, hmem⟩, hdone⟩ := backfill_spec m rest sel hlt
      refine ⟨h1, ⟨t, ht, ?_⟩, ?_⟩
      · intro x hx
        obtain ⟨q', hq'⟩ := hmem x hx
        exact ⟨q', List.mem_cons_of_mem _ hq'⟩
      · rcases hdone with hdone | hdone
        · exact Or.inl hdone
        · refine Or.inr ?_
          intro p hp
          rcases List.mem_cons.mp hp with hp | hp
          · subst hp
            rw [ht]
            exact List.mem_append.mpr (Or.inl hin)
          · exact hdone p hp
    · rename_i hnin
      split
      · rename_i hcap
        have hlen : (sel ++ [ins]).length = m := by
          simp only [List.length_append, List.length_singleton] at hcap ⊢
          omega
        refine ⟨Nat.le_of_eq hlen, ⟨[ins], rfl, ?_⟩, Or.inl hlen⟩
        intro x hx
        have hxi : x = ins := by simpa using hx
        subst hxi
        exact ⟨q, List.mem_cons_self _ _⟩
      · rename_i hncap
        have hlt' : (sel ++ [ins]).length < m := Nat.lt_of_not_le hncap
        obtain ⟨h1, ⟨t, ht, hmem⟩, hdone⟩ := backfill_spec m rest (sel ++ [ins]) hlt'
        refine ⟨h1, ⟨[ins] ++ t, by rw [ht, List.append_assoc], ?_⟩, ?_⟩
        · intro x hx
          rcases List.mem_append.mp hx with hx | hx
          · have hxi : x = ins := by simpa using hx
            subst hxi
            exact ⟨q, List.mem_cons_self _ _⟩
          · obtain ⟨q', hq'⟩ := hmem x hx
            exact ⟨q', List.mem_cons_of_mem _ hq'⟩
        · rcases hdone with hdone | hdone
          · exact Or.inl hdone
          · refine Or.inr ?_
            intro p hp
            rcases List.mem_cons.mp hp with hp | hp
            · subst hp
              rw [ht]
              exact List.mem_append.mpr (Or.inl (List.mem_append.mpr (Or.inr (by simp))))
            · exact hdone p hp

/-- C8 (amended, cap ≥ 1).  `curate_insights` retains at most `m` insights;
when the greedy diversity phase alone reaches the cap, the result is that
phase's selection and all retained pairs have token similarity ≤ 1/2; when
the diversity phase falls short of the cap, the result extends it with
further entries of the score-sorted pool, stopping only at the cap or when
every pool entry is already present. -/
theorem curate_amended (log : List Insight) (g m : Nat) (hm : 1 ≤ m) :
    (curateInsights log g m).length ≤ m ∧
    (m < log.length →
      ((divSelect m (sortedScored log g) [] []).1.length = m →
        curateInsights log g m = (divSelect m (sortedScored log g) [] []).1 ∧
        List.Pairwise simRel (curateInsights log g m)) ∧
      ((divSelect m (sortedScored log g) [] []).1.length < m →
        (∃ t, curateInsights log g m = (divSelect m (sortedScored log g) [] []).1 ++ t ∧
          ∀ x ∈ t, ∃ q, (q, x) ∈ sortedScored log g) ∧
        ((curateInsights log g m).length = m ∨
          ∀ p ∈ sortedScored log g, p.2 ∈ curateInsights log g m))) := by
  by_cases hcap : log.length ≤ m
  · refine ⟨?_, ?_⟩
    · unfold curateInsights
      rw [if_pos hcap]
      exact hcap
    · intro hlt
      omega
  · have hsortlen : (sortedScored log g).length = log.length := by
      unfold sortedScored
      rw [length_sortByDesc, List.length_map]
    have hcur : curateInsights log g m =
        applyDiversitySelection (sortedScored log g) m := by
      unfold curateInsights
      rw [if_neg hcap]
    obtain ⟨hdlen, hdpair, t0, ht0⟩ :=
      divSelect_spec m (sortedScored log g) [] []
        (by simp only [List.length_nil]; omega) rfl List.Pairwise.nil
    have happly : ¬ (sortedScored log g).length ≤ m := by omega
    refine ⟨?_, ?_⟩
    · rw [hcur]
      unfold applyDiversitySelection
      rw [if_neg happly]
      split
      · rename_i hlt
        exact (backfill_spec m (sortedScored log g) _ hlt).1
      · exact hdlen
    · intro hloglen
      constructor
      · intro heq
        have hres : curateInsights log g m = (divSelect m (sortedScored log g) [] []).1 := by
          rw [hcur]
          unfold applyDiversitySelection
          rw [if_neg happly, if_neg (by omega)]
        exact ⟨hres, by rw [hres]; exact hdpair⟩
      · intro hlt
        have hres : curateInsights log g m =
            backfill m (sortedScored log g) (divSelect m (sortedScored log g) [] []).1 := by
          rw [hcur]
          unfold applyDiversitySelection
          rw [if_neg happly, if_pos hlt]
        obtain ⟨h1, ⟨t, ht, hmem⟩, hdone⟩ := backfill_spec m (sortedScored log g) _ hlt
        refine ⟨⟨t, by rw [hres]; exact ht, hmem⟩, ?_⟩
        rcases hdone with hdone | hdone
        · exact Or.inl (by rw [hres]; exact hdone)
        · exact Or.inr (by rw [hres]; exact hdone)

def ins8 : Insight := ⟨"alpha", 0, 0⟩

/-- C8 counterexample.  With cap `m = 0` and a non-empty log, the
append-then-check break retains one insight, so "retains at most m" fails at
`m = 0`. -/
theorem curate_cap_zero_cex :
    curateInsights [ins8] 5 0 = [ins8] ∧ ¬ (([ins8] : List Insight).length ≤ 0) :=
  ⟨by with_unfolding_all rfl, by decide⟩

def insX : Insight := ⟨"x", 0, 0⟩

def insY : Insight := ⟨"y", 0, 0⟩

theorem curate_amended_witness :
    (1 : Nat) ≤ 1 ∧ (curateInsights [insX, insY] 0 1).length ≤ 1 ∧
    List.Pairwise simRel (curateInsights [insX, insY] 0 1) := by
  have h := curate_amended [insX, insY] 0 1 (by decide)
  refine ⟨by decide, h.1, ?_⟩
  exact ((h.2 (by decide)).1 (by with_unfolding_all rfl)).2

end QE
